import Mathlib

/-!
Verification of typst-languagetool against its natural-language specification.

The definitions below are shallow embeddings of the Rust sources:

* `Backends` models `src/backends/remote.rs`: the block-based `Mapper`
  (`Mapper::source`, `Mapper::add_block`) and the `TextBuilderRemote` that
  feeds it through `add_text` / `add_markup` / `add_encoded`.
* `Remote` models `src/remote/mod.rs`: the per-character `map : Vec<usize>`
  variant of `TextBuilderRemote` used by `LanguageToolRemote::check_source`.
* `Convert` models `src/convert.rs`: `SyntaxKind`, the `Output` accumulator
  with its `OutputState` merge discipline, and the recursive walker
  `State::convert` together with the top-level `convert`.
* `CacheModel` models the `Cache` struct shared by `cli/src/main.rs` and
  `lsp/src/main.rs`.
* `CliOutput` models the replacement filtering of `cli/src/output.rs` and the
  `Position` / `StringCursor` line-column trackers of `src/lib.rs`,
  `src/languagetool.rs` and `cli/src/output.rs`.

Machine strings are modelled as Lean `String` (`String.length` counts unicode
scalar values, matching Rust's `str::chars().count()`); where the Rust code
manipulates byte offsets, the model computes them explicitly from
`Char.utf8Size` and represents a byte-slicing panic as `Option.none`.
-/

namespace Backends

/-- Mirrors `enum Block` of `src/backends/remote.rs`: lengths are in
characters of the LanguageTool stream (`text` of `Encoded`) and of the
source (`markup`). -/
inductive Block where
  | text : Nat → Block
  | markup : Nat → Block
  | encoded : Nat → Nat → Block
deriving DecidableEq, Repr

/-- Characters this block contributes to the converted (LanguageTool) stream. -/
def Block.ltLen : Block → Nat
  | .text s => s
  | .markup _ => 0
  | .encoded t _ => t

/-- Characters this block covers in the original source text. -/
def Block.srcLen : Block → Nat
  | .text s => s
  | .markup s => s
  | .encoded _ m => m

def ltSum (bs : List Block) : Nat := (bs.map Block.ltLen).sum

def srcSum (bs : List Block) : Nat := (bs.map Block.srcLen).sum

@[simp] theorem ltSum_nil : ltSum [] = 0 := rfl

@[simp] theorem ltSum_cons (b : Block) (bs : List Block) :
    ltSum (b :: bs) = b.ltLen + ltSum bs := rfl

@[simp] theorem ltSum_append (xs ys : List Block) :
    ltSum (xs ++ ys) = ltSum xs + ltSum ys := by
  simp [ltSum, Nat.add_comm]

@[simp] theorem srcSum_nil : srcSum [] = 0 := rfl

@[simp] theorem srcSum_cons (b : Block) (bs : List Block) :
    srcSum (b :: bs) = b.srcLen + srcSum bs := rfl

@[simp] theorem srcSum_append (xs ys : List Block) :
    srcSum (xs ++ ys) = srcSum xs + srcSum ys := by
  simp [srcSum, Nat.add_comm]

/-- Mirrors `struct Mapper` of `src/backends/remote.rs`. -/
@[ext]
structure Mapper where
  blocks : List Block
  lt_position : Nat
  source_position : Nat
  block_index : Nat
deriving Repr

/-- The backward walk of `Mapper::source` (`while pos < self.lt_position`).
Rust decrements `block_index` (`usize`) before indexing, so at index `0` the
subtraction underflows and panics, modelled as `none`, as is an out-of-range
access. -/
def Mapper.sourceBack (m : Mapper) (pos : Nat) : Option Mapper :=
  if pos < m.lt_position then
    if h0 : m.block_index = 0 then none
    else
      let i := m.block_index - 1
      match m.blocks[i]? with
      | none => none
      | some (.text s) =>
        Mapper.sourceBack
          { m with block_index := i, lt_position := m.lt_position - s,
                   source_position := m.source_position - s } pos
      | some (.markup s) =>
        Mapper.sourceBack
          { m with block_index := i, source_position := m.source_position - s } pos
      | some (.encoded t mu) =>
        Mapper.sourceBack
          { m with block_index := i, lt_position := m.lt_position - t,
                   source_position := m.source_position - mu } pos
  else some m
termination_by m.block_index
decreasing_by all_goals omega

/-- The forward walk of `Mapper::source` (the `loop`). `self.blocks[self.block_index]`
panics in Rust when the index runs past the end of `blocks`, modelled as `none`. -/
def Mapper.sourceFwd (m : Mapper) (pos : Nat) : Option (Nat × Mapper) :=
  if hlen : m.block_index < m.blocks.length then
    let diff := pos - m.lt_position
    match m.blocks[m.block_index] with
    | .text s =>
      if diff < s then some (m.source_position + diff, m)
      else
        Mapper.sourceFwd
          { m with block_index := m.block_index + 1, lt_position := m.lt_position + s,
                   source_position := m.source_position + s } pos
    | .markup s =>
      Mapper.sourceFwd
        { m with block_index := m.block_index + 1,
                 source_position := m.source_position + s } pos
    | .encoded t mu =>
      if diff < t then some (m.source_position + diff, m)
      else
        Mapper.sourceFwd
          { m with block_index := m.block_index + 1, lt_position := m.lt_position + t,
                   source_position := m.source_position + mu } pos
  else none
termination_by m.blocks.length - m.block_index
decreasing_by all_goals omega

/-- Rust `Mapper::source`: the backward walk followed by the forward walk, with the
returned source position and the mutated mapper. -/
def Mapper.source (m : Mapper) (pos : Nat) : Option (Nat × Mapper) :=
  (m.sourceBack pos).bind (fun m' => m'.sourceFwd pos)

/-- Mirrors `Mapper::add_block`: a block of the same kind as the last one is
merged into it, otherwise it is pushed. -/
def addBlockAux : List Block → Block → List Block
  | [], b => [b]
  | [last], b =>
    match last, b with
    | .text o, .text s => [.text (o + s)]
    | .markup o, .markup s => [.markup (o + s)]
    | .encoded ot om, .encoded t mu => [.encoded (ot + t) (om + mu)]
    | last, b => [last, b]
  | x :: y :: xs, b => x :: addBlockAux (y :: xs) b

def Mapper.add_block (m : Mapper) (b : Block) : Mapper :=
  { m with blocks := addBlockAux m.blocks b }

/-- One call against the `TextBuilder` trait, with the string arguments of
`add_text` / `add_markup` / `add_encoded` (for `encoded`, in the Rust argument
order `(markup, text)`). -/
inductive BuildOp where
  | text : String → BuildOp
  | markup : String → BuildOp
  | encoded : String → String → BuildOp
deriving DecidableEq, Repr

def BuildOp.toBlock : BuildOp → Block
  | .text s => .text s.length
  | .markup s => .markup s.length
  | .encoded mu t => .encoded t.length mu.length

/-- Mirrors `struct TextBuilderRemote` of `src/backends/remote.rs`. -/
structure TextBuilderRemote where
  converted : String
  mapper : Mapper
deriving Repr

def TextBuilderRemote.new : TextBuilderRemote :=
  { converted := "", mapper := { blocks := [], lt_position := 0, source_position := 0, block_index := 0 } }

def TextBuilderRemote.add_text (tb : TextBuilderRemote) (text : String) : TextBuilderRemote :=
  { converted := tb.converted ++ text, mapper := tb.mapper.add_block (.text text.length) }

def TextBuilderRemote.add_markup (tb : TextBuilderRemote) (markup : String) : TextBuilderRemote :=
  { tb with mapper := tb.mapper.add_block (.markup markup.length) }

def TextBuilderRemote.add_encoded (tb : TextBuilderRemote) (markup text : String) : TextBuilderRemote :=
  { converted := tb.converted ++ text,
    mapper := tb.mapper.add_block (.encoded text.length markup.length) }

def TextBuilderRemote.apply (tb : TextBuilderRemote) : BuildOp → TextBuilderRemote
  | .text s => tb.add_text s
  | .markup s => tb.add_markup s
  | .encoded mu t => tb.add_encoded mu t

/-- The builder after a whole sequence of `TextBuilder` calls. -/
def TextBuilderRemote.run (tb : TextBuilderRemote) (ops : List BuildOp) : TextBuilderRemote :=
  ops.foldl TextBuilderRemote.apply tb

/-- Spec-side reference function on a raw block sequence: the source-character
offset of converted-stream index `i`, defined to be `some` exactly when index
`i` falls inside a `text` block (a character carrying a source position). -/
def blockSource : List Block → Nat → Option Nat
  | [], _ => none
  | .text s :: rest, i =>
    if i < s then some i else (blockSource rest (i - s)).map (· + s)
  | .markup s :: rest, i => (blockSource rest i).map (· + s)
  | .encoded t mu :: rest, i =>
    if i < t then none else (blockSource rest (i - t)).map (· + mu)

/-- Spec-side reference on the raw call sequence, following the claim's words:
the source character offset of stream character `i` when that character was
emitted by `add_text` (`none` for characters emitted by `add_encoded` or
indices past the end of the stream). -/
def taggedSource : List BuildOp → Nat → Option Nat
  | [], _ => none
  | .text s :: rest, i =>
    if i < s.length then some i
    else (taggedSource rest (i - s.length)).map (· + s.length)
  | .markup s :: rest, i => (taggedSource rest i).map (· + s.length)
  | .encoded mu t :: rest, i =>
    if i < t.length then none
    else (taggedSource rest (i - t.length)).map (· + mu.length)

theorem taggedSource_eq_blockSource (ops : List BuildOp) (i : Nat) :
    taggedSource ops i = blockSource (ops.map BuildOp.toBlock) i := by
  induction ops generalizing i with
  | nil => rfl
  | cons op rest ih =>
    cases op <;> simp [taggedSource, blockSource, BuildOp.toBlock, ih]

theorem option_map_add_add (v : Option Nat) (a b : Nat) :
    Option.map (fun x => x + b) (Option.map (fun x => x + a) v) =
      Option.map (fun x => x + (b + a)) v := by
  cases v with
  | none => rfl
  | some x => simp only [Option.map_some']; congr 1; omega

theorem blockSource_append (xs ys : List Block) (i : Nat) :
    blockSource (xs ++ ys) i =
      if i < ltSum xs then blockSource xs i
      else (blockSource ys (i - ltSum xs)).map (· + srcSum xs) := by
  induction xs generalizing i with
  | nil => simp [blockSource]
  | cons b rest ih =>
    cases b with
    | text s =>
      by_cases h1 : i < s
      · have h3 : i < s + ltSum rest := by omega
        simp [blockSource, Block.ltLen, Block.srcLen, h1, h3]
      · by_cases h2 : i - s < ltSum rest
        · have h3 : i < s + ltSum rest := by omega
          simp [blockSource, Block.ltLen, Block.srcLen, h1, h2, h3, ih]
        · have h3 : ¬ i < s + ltSum rest := by omega
          have h4 : i - s - ltSum rest = i - (s + ltSum rest) := by omega
          simp only [List.cons_append, blockSource, ih, h1, h2, h3, if_false, ltSum_cons,
            srcSum_cons, Block.ltLen, Block.srcLen, h4, option_map_add_add, List.append_eq]
    | markup s =>
      have hl : Block.ltLen (.markup s) = 0 := rfl
      by_cases h2 : i < ltSum rest
      · have h3 : i < Block.ltLen (.markup s) + ltSum rest := by omega
        simp [blockSource, Block.ltLen, Block.srcLen, h2, h3, ih]
      · have h3 : ¬ i < Block.ltLen (.markup s) + ltSum rest := by
          rw [hl]; omega
        simp only [List.cons_append, blockSource, ih, h2, h3, if_false, ltSum_cons,
          srcSum_cons, Block.ltLen, Block.srcLen, Nat.zero_add, option_map_add_add,
          List.append_eq]
    | encoded t mu =>
      by_cases h1 : i < t
      · have h3 : i < t + ltSum rest := by omega
        simp [blockSource, Block.ltLen, Block.srcLen, h1, h3]
      · by_cases h2 : i - t < ltSum rest
        · have h3 : i < t + ltSum rest := by omega
          simp [blockSource, Block.ltLen, Block.srcLen, h1, h2, h3, ih]
        · have h3 : ¬ i < t + ltSum rest := by omega
          have h4 : i - t - ltSum rest = i - (t + ltSum rest) := by omega
          simp only [List.cons_append, blockSource, ih, h1, h2, h3, if_false, ltSum_cons,
            srcSum_cons, Block.ltLen, Block.srcLen, h4, option_map_add_add, List.append_eq]

theorem ltSum_addBlockAux (bs : List Block) (b : Block) :
    ltSum (addBlockAux bs b) = ltSum bs + b.ltLen := by
  induction bs with
  | nil => simp [addBlockAux]
  | cons x xs ih =>
    cases xs with
    | nil =>
      cases x <;> cases b <;> simp [addBlockAux, Block.ltLen]
    | cons y ys => simp [addBlockAux, ih]; omega

theorem srcSum_addBlockAux (bs : List Block) (b : Block) :
    srcSum (addBlockAux bs b) = srcSum bs + b.srcLen := by
  induction bs with
  | nil => simp [addBlockAux]
  | cons x xs ih =>
    cases xs with
    | nil =>
      cases x <;> cases b <;> simp [addBlockAux, Block.srcLen]
    | cons y ys => simp [addBlockAux, ih]; omega

theorem blockSource_merge_text (o s i : Nat) :
    blockSource [Block.text (o + s)] i = blockSource [Block.text o, Block.text s] i := by
  by_cases h1 : i < o
  · simp [blockSource, h1, show i < o + s by omega]
  · by_cases h2 : i - o < s
    · have h3 : i < o + s := by omega
      simp only [blockSource, h1, h2, h3, if_true, if_false, if_pos, if_neg,
        not_false_iff, Option.map_some']
      congr 1
      omega
    · have h3 : ¬ i < o + s := by omega
      simp [blockSource, h1, h2, h3]

theorem blockSource_merge_markup (o s i : Nat) :
    blockSource [Block.markup (o + s)] i = blockSource [Block.markup o, Block.markup s] i := by
  simp [blockSource]

theorem blockSource_merge_encoded (ot om t mu i : Nat) :
    blockSource [Block.encoded (ot + t) (om + mu)] i =
      blockSource [Block.encoded ot om, Block.encoded t mu] i := by
  simp only [blockSource]
  split_ifs <;> simp

/-- Merging a block into the end of the list does not change the spec-side
source function: merged same-kind blocks behave like the two separate blocks. -/
theorem blockSource_addBlockAux (bs : List Block) (b : Block) (i : Nat) :
    blockSource (addBlockAux bs b) i = blockSource (bs ++ [b]) i := by
  induction bs generalizing i with
  | nil => simp [addBlockAux]
  | cons x xs ih =>
    cases xs with
    | nil =>
      cases x <;> cases b <;>
        first
          | rfl
          | exact blockSource_merge_text _ _ _
          | exact blockSource_merge_markup _ _ _
          | exact blockSource_merge_encoded _ _ _ _ _
    | cons y ys =>
      simp only [addBlockAux, List.cons_append]
      cases x <;> simp [blockSource, ih]

/-- The block list accumulated by a run of `TextBuilder` calls. -/
def buildBlocks (ops : List BuildOp) : List Block :=
  ops.foldl (fun bs op => addBlockAux bs op.toBlock) []

theorem ltSum_buildBlocks_aux (ops : List BuildOp) (acc : List Block) :
    ltSum (ops.foldl (fun bs op => addBlockAux bs op.toBlock) acc) =
      ltSum acc + ltSum (ops.map BuildOp.toBlock) := by
  induction ops generalizing acc with
  | nil => simp
  | cons op rest ih => simp [List.foldl_cons, ih, ltSum_addBlockAux]; omega

theorem srcSum_buildBlocks_aux (ops : List BuildOp) (acc : List Block) :
    srcSum (ops.foldl (fun bs op => addBlockAux bs op.toBlock) acc) =
      srcSum acc + srcSum (ops.map BuildOp.toBlock) := by
  induction ops generalizing acc with
  | nil => simp
  | cons op rest ih => simp [List.foldl_cons, ih, srcSum_addBlockAux]; omega

theorem ltSum_foldl (bs : List Block) :
    ltSum (bs.foldl addBlockAux []) = ltSum bs := by
  induction bs using List.reverseRecOn with
  | nil => rfl
  | append_singleton r c ihr =>
    rw [List.foldl_append, List.foldl_cons, List.foldl_nil, ltSum_addBlockAux, ihr]
    simp

theorem srcSum_foldl (bs : List Block) :
    srcSum (bs.foldl addBlockAux []) = srcSum bs := by
  induction bs using List.reverseRecOn with
  | nil => rfl
  | append_singleton r c ihr =>
    rw [List.foldl_append, List.foldl_cons, List.foldl_nil, srcSum_addBlockAux, ihr]
    simp

/-- The merged block list computes the same spec-side source offsets as the raw
one-block-per-call list. -/
theorem blockSource_buildBlocks (ops : List BuildOp) (i : Nat) :
    blockSource (buildBlocks ops) i = blockSource (ops.map BuildOp.toBlock) i := by
  suffices h : ∀ ops' : List Block, ∀ i,
      blockSource (ops'.foldl addBlockAux []) i = blockSource ops' i by
    have h2 : buildBlocks ops = (ops.map BuildOp.toBlock).foldl addBlockAux [] := by
      simp [buildBlocks, List.foldl_map]
    rw [h2, h]
  intro ops'
  induction ops' using List.reverseRecOn with
  | nil => intro i; rfl
  | append_singleton rest b ih =>
    intro i
    rw [List.foldl_append, List.foldl_cons, List.foldl_nil, blockSource_addBlockAux,
      blockSource_append, blockSource_append, ltSum_foldl, srcSum_foldl, ih]

/-- Validity of a mapper state over its block list: `block_index` is in range
and the two running positions are the sums over the blocks before it.  This
holds for the freshly built mapper and is preserved by `Mapper::source`. -/
def Mapper.Valid (m : Mapper) : Prop :=
  m.block_index ≤ m.blocks.length ∧
  m.lt_position = ltSum (m.blocks.take m.block_index) ∧
  m.source_position = srcSum (m.blocks.take m.block_index)

theorem take_succ_of_getElem {bs : List Block} {k : Nat} {b : Block}
    (h : bs[k]? = some b) : bs.take (k + 1) = bs.take k ++ [b] := by
  have hk : k < bs.length := by
    by_contra hk
    rw [List.getElem?_eq_none (Nat.le_of_not_lt hk)] at h
    exact Option.noConfusion h
  rw [List.take_succ, List.getElem?_eq_getElem hk] at *
  simp_all

/-- The backward walk terminates on a valid mapper, preserves validity and the
block list, and stops with `lt_position ≤ pos`. -/
theorem sourceBack_spec (n : Nat) (m : Mapper) (pos : Nat)
    (hn : m.block_index = n) (hv : m.Valid) :
    ∃ m', m.sourceBack pos = some m' ∧ m'.Valid ∧ m'.blocks = m.blocks ∧
      m'.lt_position ≤ pos := by
  induction n generalizing m with
  | zero =>
    have hlt : m.lt_position = 0 := by
      have := hv.2.1
      rw [hn] at this
      simpa using this
    refine ⟨m, ?_, hv, rfl, by omega⟩
    rw [Mapper.sourceBack]
    simp [hlt]
  | succ k ih =>
    by_cases hpos : pos < m.lt_position
    · have hk : k < m.blocks.length := by
        have h0 := hv.1
        omega
      cases hbk : m.blocks[k] with
      | text s =>
        have hget : m.blocks[k]? = some (.text s) := by
          rw [List.getElem?_eq_getElem hk, hbk]
        have htake : m.blocks.take (k + 1) = m.blocks.take k ++ [Block.text s] :=
          take_succ_of_getElem hget
        have hlt : m.lt_position = ltSum (m.blocks.take k) + s := by
          have h5 := hv.2.1
          rw [hn, htake] at h5
          simpa [Block.ltLen] using h5
        have hsrc : m.source_position = srcSum (m.blocks.take k) + s := by
          have h5 := hv.2.2
          rw [hn, htake] at h5
          simpa [Block.srcLen] using h5
        have hval2 : Mapper.Valid
            (Mapper.mk m.blocks (m.lt_position - s) (m.source_position - s) k) := by
          refine ⟨?_, ?_, ?_⟩
          · show k ≤ m.blocks.length
            omega
          · show m.lt_position - s = ltSum (m.blocks.take k)
            omega
          · show m.source_position - s = srcSum (m.blocks.take k)
            omega
        have hrec := ih (Mapper.mk m.blocks (m.lt_position - s) (m.source_position - s) k)
          rfl hval2
        rw [Mapper.sourceBack, if_pos hpos, dif_neg (show ¬ m.block_index = 0 by omega)]
        simp only [hn, Nat.add_sub_cancel, hget]
        exact hrec
      | markup s =>
        have hget : m.blocks[k]? = some (.markup s) := by
          rw [List.getElem?_eq_getElem hk, hbk]
        have htake : m.blocks.take (k + 1) = m.blocks.take k ++ [Block.markup s] :=
          take_succ_of_getElem hget
        have hlt : m.lt_position = ltSum (m.blocks.take k) := by
          have h5 := hv.2.1
          rw [hn, htake] at h5
          simpa [Block.ltLen] using h5
        have hsrc : m.source_position = srcSum (m.blocks.take k) + s := by
          have h5 := hv.2.2
          rw [hn, htake] at h5
          simpa [Block.srcLen] using h5
        have hval2 : Mapper.Valid
            (Mapper.mk m.blocks m.lt_position (m.source_position - s) k) := by
          refine ⟨?_, ?_, ?_⟩
          · show k ≤ m.blocks.length
            omega
          · show m.lt_position = ltSum (m.blocks.take k)
            omega
          · show m.source_position - s = srcSum (m.blocks.take k)
            omega
        have hrec := ih (Mapper.mk m.blocks m.lt_position (m.source_position - s) k)
          rfl hval2
        rw [Mapper.sourceBack, if_pos hpos, dif_neg (show ¬ m.block_index = 0 by omega)]
        simp only [hn, Nat.add_sub_cancel, hget]
        exact hrec
      | encoded t mu =>
        have hget : m.blocks[k]? = some (.encoded t mu) := by
          rw [List.getElem?_eq_getElem hk, hbk]
        have htake : m.blocks.take (k + 1) = m.blocks.take k ++ [Block.encoded t mu] :=
          take_succ_of_getElem hget
        have hlt : m.lt_position = ltSum (m.blocks.take k) + t := by
          have h5 := hv.2.1
          rw [hn, htake] at h5
          simpa [Block.ltLen] using h5
        have hsrc : m.source_position = srcSum (m.blocks.take k) + mu := by
          have h5 := hv.2.2
          rw [hn, htake] at h5
          simpa [Block.srcLen] using h5
        have hval2 : Mapper.Valid
            (Mapper.mk m.blocks (m.lt_position - t) (m.source_position - mu) k) := by
          refine ⟨?_, ?_, ?_⟩
          · show k ≤ m.blocks.length
            omega
          · show m.lt_position - t = ltSum (m.blocks.take k)
            omega
          · show m.source_position - mu = srcSum (m.blocks.take k)
            omega
        have hrec := ih (Mapper.mk m.blocks (m.lt_position - t) (m.source_position - mu) k)
          rfl hval2
        rw [Mapper.sourceBack, if_pos hpos, dif_neg (show ¬ m.block_index = 0 by omega)]
        simp only [hn, Nat.add_sub_cancel, hget]
        exact hrec
    · refine ⟨m, ?_, hv, rfl, by omega⟩
      rw [Mapper.sourceBack]
      simp [hpos]

/-- The forward walk returns `source_position` plus the spec-side offset of
`pos` within the blocks not yet passed, preserving validity. -/
theorem sourceFwd_spec (n : Nat) (m : Mapper) (pos w : Nat)
    (hn : m.blocks.length - m.block_index = n) (hv : m.Valid)
    (hle : m.lt_position ≤ pos)
    (hbs : blockSource (m.blocks.drop m.block_index) (pos - m.lt_position) = some w) :
    ∃ m', m.sourceFwd pos = some (m.source_position + w, m') ∧ m'.Valid ∧
      m'.blocks = m.blocks := by
  induction n generalizing m w with
  | zero =>
    exfalso
    have hk : m.blocks.length ≤ m.block_index := by omega
    rw [List.drop_eq_nil_of_le hk] at hbs
    exact Option.noConfusion hbs
  | succ n' ih =>
    by_cases hk : m.block_index < m.blocks.length
    · have hdrop : m.blocks.drop m.block_index =
          m.blocks[m.block_index] :: m.blocks.drop (m.block_index + 1) :=
        List.drop_eq_getElem_cons hk
      have htake : m.blocks.take (m.block_index + 1) =
          m.blocks.take m.block_index ++ [m.blocks[m.block_index]] :=
        take_succ_of_getElem (List.getElem?_eq_getElem hk)
      cases hbk : m.blocks[m.block_index] with
      | text s =>
        rw [hbk] at hdrop htake
        rw [hdrop] at hbs
        by_cases hdiff : pos - m.lt_position < s
        · rw [Mapper.sourceFwd, dif_pos hk]
          simp only [hbk, blockSource, hdiff, if_true, Option.some_inj] at hbs ⊢
          refine ⟨m, ?_, hv, rfl⟩
          rw [hbs]
        · simp only [blockSource, hdiff, if_false, Option.map_eq_some'] at hbs
          obtain ⟨w2, hw2, hww⟩ := hbs
          have hval2 : Mapper.Valid
              (Mapper.mk m.blocks (m.lt_position + s) (m.source_position + s)
                (m.block_index + 1)) := by
            refine ⟨?_, ?_, ?_⟩
            · show m.block_index + 1 ≤ m.blocks.length
              omega
            · show m.lt_position + s = ltSum (m.blocks.take (m.block_index + 1))
              rw [htake]
              simp [hv.2.1, Block.ltLen]
            · show m.source_position + s = srcSum (m.blocks.take (m.block_index + 1))
              rw [htake]
              simp [hv.2.2, Block.srcLen]
          have hle2 : m.lt_position + s ≤ pos := by omega
          have hbs2 : blockSource
              (m.blocks.drop (m.block_index + 1)) (pos - (m.lt_position + s)) = some w2 := by
            have harith : pos - (m.lt_position + s) = pos - m.lt_position - s := by omega
            rw [harith]
            exact hw2
          obtain ⟨m', hm', hv', hbl'⟩ :=
            ih (Mapper.mk m.blocks (m.lt_position + s) (m.source_position + s)
              (m.block_index + 1)) w2 (by simp; omega) hval2 hle2 hbs2
          refine ⟨m', ?_, hv', hbl'⟩
          rw [Mapper.sourceFwd, dif_pos hk]
          simp only [hbk, hdiff, if_false]
          rw [hm']
          show some (m.source_position + s + w2, m') = some (m.source_position + w, m')
          congr 2
          omega
      | markup s =>
        rw [hbk] at hdrop htake
        rw [hdrop] at hbs
        simp only [blockSource, Option.map_eq_some'] at hbs
        obtain ⟨w2, hw2, hww⟩ := hbs
        have hval2 : Mapper.Valid
            (Mapper.mk m.blocks m.lt_position (m.source_position + s)
              (m.block_index + 1)) := by
          refine ⟨?_, ?_, ?_⟩
          · show m.block_index + 1 ≤ m.blocks.length
            omega
          · show m.lt_position = ltSum (m.blocks.take (m.block_index + 1))
            rw [htake]
            simp [hv.2.1, Block.ltLen]
          · show m.source_position + s = srcSum (m.blocks.take (m.block_index + 1))
            rw [htake]
            simp [hv.2.2, Block.srcLen]
        obtain ⟨m', hm', hv', hbl'⟩ :=
          ih (Mapper.mk m.blocks m.lt_position (m.source_position + s)
            (m.block_index + 1)) w2 (by simp; omega) hval2 hle hw2
        refine ⟨m', ?_, hv', hbl'⟩
        rw [Mapper.sourceFwd, dif_pos hk]
        simp only [hbk]
        rw [hm']
        show some (m.source_position + s + w2, m') = some (m.source_position + w, m')
        congr 2
        omega
      | encoded t mu =>
        rw [hbk] at hdrop htake
        rw [hdrop] at hbs
        by_cases hdiff : pos - m.lt_position < t
        · simp only [blockSource, hdiff, if_true] at hbs
          exact Option.noConfusion hbs
        · simp only [blockSource, hdiff, if_false, Option.map_eq_some'] at hbs
          obtain ⟨w2, hw2, hww⟩ := hbs
          have hval2 : Mapper.Valid
              (Mapper.mk m.blocks (m.lt_position + t) (m.source_position + mu)
                (m.block_index + 1)) := by
            refine ⟨?_, ?_, ?_⟩
            · show m.block_index + 1 ≤ m.blocks.length
              omega
            · show m.lt_position + t = ltSum (m.blocks.take (m.block_index + 1))
              rw [htake]
              simp [hv.2.1, Block.ltLen]
            · show m.source_position + mu = srcSum (m.blocks.take (m.block_index + 1))
              rw [htake]
              simp [hv.2.2, Block.srcLen]
          have hle2 : m.lt_position + t ≤ pos := by omega
          have hbs2 : blockSource
              (m.blocks.drop (m.block_index + 1)) (pos - (m.lt_position + t)) = some w2 := by
            have harith : pos - (m.lt_position + t) = pos - m.lt_position - t := by omega
            rw [harith]
            exact hw2
          obtain ⟨m', hm', hv', hbl'⟩ :=
            ih (Mapper.mk m.blocks (m.lt_position + t) (m.source_position + mu)
              (m.block_index + 1)) w2 (by simp; omega) hval2 hle2 hbs2
          refine ⟨m', ?_, hv', hbl'⟩
          rw [Mapper.sourceFwd, dif_pos hk]
          simp only [hbk, hdiff, if_false]
          rw [hm']
          show some (m.source_position + mu + w2, m') = some (m.source_position + w, m')
          congr 2
          omega
    · exfalso
      rw [List.drop_eq_nil_of_le (Nat.le_of_not_lt hk)] at hbs
      exact Option.noConfusion hbs

theorem run_mapper_aux (ops : List BuildOp) (tb : TextBuilderRemote) :
    (tb.run ops).mapper.blocks =
        ops.foldl (fun bs op => addBlockAux bs op.toBlock) tb.mapper.blocks ∧
    (tb.run ops).mapper.lt_position = tb.mapper.lt_position ∧
    (tb.run ops).mapper.source_position = tb.mapper.source_position ∧
    (tb.run ops).mapper.block_index = tb.mapper.block_index := by
  induction ops generalizing tb with
  | nil => exact ⟨rfl, rfl, rfl, rfl⟩
  | cons op rest ih =>
    cases op <;>
      simpa [TextBuilderRemote.run, TextBuilderRemote.apply, TextBuilderRemote.add_text,
        TextBuilderRemote.add_markup, TextBuilderRemote.add_encoded, Mapper.add_block,
        BuildOp.toBlock] using ih _

/-- The mapper built by a fresh run: merged blocks, all positions zero. -/
theorem run_mapper (ops : List BuildOp) :
    (TextBuilderRemote.new.run ops).mapper = Mapper.mk (buildBlocks ops) 0 0 0 := by
  obtain ⟨h1, h2, h3, h4⟩ := run_mapper_aux ops TextBuilderRemote.new
  ext
  · rw [h1]; rfl
  · rw [h2]; rfl
  · rw [h3]; rfl
  · rw [h4]; rfl

theorem run_cons (tb : TextBuilderRemote) (op : BuildOp) (rest : List BuildOp) :
    tb.run (op :: rest) = (tb.apply op).run rest := rfl

/-- The converted stream grows by exactly the `text`-character count of each
call. -/
theorem run_converted_length (ops : List BuildOp) (tb : TextBuilderRemote) :
    (tb.run ops).converted.length =
      tb.converted.length + ltSum (ops.map BuildOp.toBlock) := by
  induction ops generalizing tb with
  | nil => simp [TextBuilderRemote.run]
  | cons op rest ih =>
    rw [run_cons, ih]
    cases op <;>
      simp [TextBuilderRemote.apply, TextBuilderRemote.add_text,
        TextBuilderRemote.add_markup, TextBuilderRemote.add_encoded, BuildOp.toBlock,
        ltSum_cons, Block.ltLen, String.length_append] <;>
      omega

/-- C1 (confirmed): for every sequence of `add_text` / `add_markup` /
`add_encoded` calls building one chunk's converted stream, and every character
index `i` of that stream emitted by `add_text` (that is, `taggedSource` tags it
with source offset `v`), `Mapper::source i` on the mapper built by those calls
returns exactly that source character offset `v`. The first conjunct ties the
indices to the converted stream: its character count is the total `ltLen` of
the calls. -/
theorem c1_mapper_source_roundtrip (ops : List BuildOp) (i v : Nat)
    (h : taggedSource ops i = some v) :
    (TextBuilderRemote.new.run ops).converted.length = ltSum (ops.map BuildOp.toBlock) ∧
    ∃ m', Mapper.source (TextBuilderRemote.new.run ops).mapper i = some (v, m') := by
  constructor
  · simpa [TextBuilderRemote.new] using
      run_converted_length ops TextBuilderRemote.new
  · rw [run_mapper ops]
    have hval : Mapper.Valid (Mapper.mk (buildBlocks ops) 0 0 0) :=
      ⟨Nat.zero_le _, rfl, rfl⟩
    have hbs : blockSource ((Mapper.mk (buildBlocks ops) 0 0 0).blocks.drop
        (Mapper.mk (buildBlocks ops) 0 0 0).block_index)
        (i - (Mapper.mk (buildBlocks ops) 0 0 0).lt_position) = some v := by
      show blockSource ((buildBlocks ops).drop 0) (i - 0) = some v
      rw [List.drop_zero, Nat.sub_zero, blockSource_buildBlocks,
        ← taggedSource_eq_blockSource]
      exact h
    obtain ⟨m', hm', _, _⟩ :=
      sourceFwd_spec ((buildBlocks ops).length) (Mapper.mk (buildBlocks ops) 0 0 0)
        i v rfl hval (Nat.zero_le _) hbs
    refine ⟨m', ?_⟩
    rw [Mapper.source]
    have hback : (Mapper.mk (buildBlocks ops) 0 0 0).sourceBack i =
        some (Mapper.mk (buildBlocks ops) 0 0 0) := by
      rw [Mapper.sourceBack]
      simp
    rw [hback]
    simp only [Option.some_bind]
    simpa using hm'

/-- Witness for C1 at the call sequence `add_markup "ab"; add_text "cde"` and
stream index 1 (the character `d`), whose source offset is 3. -/
theorem c1_mapper_source_roundtrip_witness :
    taggedSource [BuildOp.markup "ab", BuildOp.text "cde"] 1 = some 3 ∧
    (∃ m', Mapper.source
      (TextBuilderRemote.new.run [BuildOp.markup "ab", BuildOp.text "cde"]).mapper 1 =
        some (3, m')) :=
  ⟨by decide,
   (c1_mapper_source_roundtrip [BuildOp.markup "ab", BuildOp.text "cde"] 1 3 (by decide)).2⟩

end Backends

namespace Remote

/-- Mirrors `struct TextBuilderRemote` of `src/remote/mod.rs`: one `map` entry
per character of `converted`, holding the source character position. -/
structure TextBuilderRemote where
  converted : String
  map : List Nat
  position : Nat
deriving DecidableEq, Repr

def TextBuilderRemote.new : TextBuilderRemote :=
  { converted := "", map := [], position := 0 }

/-- Rust `add_text`: pushes `position, position + 1, ...` — one entry per character
of `text` — and advances `position` by the character count. -/
def TextBuilderRemote.add_text (tb : TextBuilderRemote) (text : String) : TextBuilderRemote :=
  { converted := tb.converted ++ text,
    map := tb.map ++ (List.range text.length).map (tb.position + ·),
    position := tb.position + text.length }

/-- Rust `add_markup`: only advances `position`. -/
def TextBuilderRemote.add_markup (tb : TextBuilderRemote) (markup : String) : TextBuilderRemote :=
  { tb with position := tb.position + markup.length }

/-- Rust `add_encoded`: pushes the current `position` once per character of the
substitute `text`, then advances `position` by the character count of the
original `markup`. -/
def TextBuilderRemote.add_encoded (tb : TextBuilderRemote) (markup text : String) : TextBuilderRemote :=
  { converted := tb.converted ++ text,
    map := tb.map ++ List.replicate text.length tb.position,
    position := tb.position + markup.length }

def TextBuilderRemote.apply (tb : TextBuilderRemote) : Backends.BuildOp → TextBuilderRemote
  | .text s => tb.add_text s
  | .markup s => tb.add_markup s
  | .encoded mu t => tb.add_encoded mu t

def TextBuilderRemote.run (tb : TextBuilderRemote) (ops : List Backends.BuildOp) : TextBuilderRemote :=
  ops.foldl TextBuilderRemote.apply tb

theorem apply_run_cons (tb : TextBuilderRemote) (op : Backends.BuildOp) (rest : List Backends.BuildOp) :
    tb.run (op :: rest) = (tb.apply op).run rest := rfl

theorem run_map_length (ops : List Backends.BuildOp) (tb : TextBuilderRemote)
    (hinv : tb.map.length = tb.converted.length) :
    (tb.run ops).map.length = (tb.run ops).converted.length := by
  induction ops generalizing tb with
  | nil => exact hinv
  | cons op rest ih =>
    rw [apply_run_cons]
    refine ih _ ?_
    cases op <;>
      simp [TextBuilderRemote.apply, TextBuilderRemote.add_text,
        TextBuilderRemote.add_markup, TextBuilderRemote.add_encoded,
        String.length_append, hinv]

/-- C9 (confirmed): in `LanguageToolRemote::check_source` the position map of
`TextBuilderRemote` holds exactly one entry per character of the converted
stream, so the lookup `map[m.offset + m.length]` performed for a suggestion's
end is in bounds exactly when `m.offset + m.length` is strictly below the
number of emitted stream characters; in particular it is out of bounds for a
match whose range ends exactly at the end of the converted text. -/
theorem c9_map_indexing_bounds (ops : List Backends.BuildOp) :
    (TextBuilderRemote.new.run ops).map.length =
        (TextBuilderRemote.new.run ops).converted.length ∧
    (∀ off len : Nat,
      ((TextBuilderRemote.new.run ops).map[off + len]?).isSome ↔
        off + len < (TextBuilderRemote.new.run ops).converted.length) ∧
    (TextBuilderRemote.new.run ops).map[(TextBuilderRemote.new.run ops).converted.length]?
      = none := by
  have hlen : (TextBuilderRemote.new.run ops).map.length =
      (TextBuilderRemote.new.run ops).converted.length :=
    run_map_length ops TextBuilderRemote.new rfl
  refine ⟨hlen, ?_, ?_⟩
  · intro off len
    constructor
    · intro h
      by_contra hc
      rw [← hlen] at hc
      rw [List.getElem?_eq_none (Nat.le_of_not_lt hc)] at h
      simp at h
    · intro h
      rw [← hlen] at h
      rw [List.getElem?_eq_getElem h]
      rfl
  · rw [List.getElem?_eq_none]
    omega

/-- Witness for C9: after `add_text "ab"`, the stream has two characters, index
1 is in bounds and index 2 (the end of the stream) is out of bounds. -/
theorem c9_map_indexing_bounds_witness :
    (TextBuilderRemote.new.run [Backends.BuildOp.text "ab"]).map.length = 2 ∧
    (((TextBuilderRemote.new.run [Backends.BuildOp.text "ab"]).map[1 + 1]?).isSome ↔
      (1 + 1 : Nat) < 2) :=
  ⟨by decide,
   by
    have h := (c9_map_indexing_bounds [Backends.BuildOp.text "ab"]).2.1 1 1
    have hconv : (TextBuilderRemote.new.run [Backends.BuildOp.text "ab"]).converted.length = 2 := by
      decide
    rw [hconv] at h
    exact h⟩

end Remote

namespace MarkupInvisibility

/-- A call is an `add_markup` call. -/
def isMarkupOp : Backends.BuildOp → Bool
  | .markup _ => true
  | _ => false

/-- C4 (confirmed): `add_markup` never appends to the converted text, in both
`TextBuilderRemote` implementations (`src/backends/remote.rs` and
`src/remote/mod.rs`); consequently a region whose conversion produces only
`Markup` segments emits the empty stream. -/
theorem c4_markup_invisibility :
    (∀ (tb : Backends.TextBuilderRemote) (s : String),
      (tb.add_markup s).converted = tb.converted) ∧
    (∀ (tb : Remote.TextBuilderRemote) (s : String),
      (tb.add_markup s).converted = tb.converted) ∧
    (∀ ops : List Backends.BuildOp, (∀ op ∈ ops, isMarkupOp op) →
      (Backends.TextBuilderRemote.new.run ops).converted = "") ∧
    (∀ ops : List Backends.BuildOp, (∀ op ∈ ops, isMarkupOp op) →
      (Remote.TextBuilderRemote.new.run ops).converted = "") := by
  have hb : ∀ (tb : Backends.TextBuilderRemote) (s : String),
      (tb.add_markup s).converted = tb.converted := fun _ _ => rfl
  have hr : ∀ (tb : Remote.TextBuilderRemote) (s : String),
      (tb.add_markup s).converted = tb.converted := fun _ _ => rfl
  refine ⟨hb, hr, ?_, ?_⟩
  · suffices haux : ∀ (ops : List Backends.BuildOp) (tb : Backends.TextBuilderRemote),
        (∀ op ∈ ops, isMarkupOp op) →
        (tb.run ops).converted = tb.converted by
      intro ops hops
      rw [haux ops _ hops]
      rfl
    intro ops
    induction ops with
    | nil => intro tb _; rfl
    | cons op rest ih =>
      intro tb hops
      rw [Backends.run_cons]
      rw [ih _ (fun o ho => hops o (List.mem_cons_of_mem _ ho))]
      cases op with
      | markup s => rfl
      | text s => exact absurd (hops _ (List.mem_cons_self _ _)) (by simp [isMarkupOp])
      | encoded mu t => exact absurd (hops _ (List.mem_cons_self _ _)) (by simp [isMarkupOp])
  · suffices haux : ∀ (ops : List Backends.BuildOp) (tb : Remote.TextBuilderRemote),
        (∀ op ∈ ops, isMarkupOp op) →
        (tb.run ops).converted = tb.converted by
      intro ops hops
      rw [haux ops _ hops]
      rfl
    intro ops
    induction ops with
    | nil => intro tb _; rfl
    | cons op rest ih =>
      intro tb hops
      rw [Remote.apply_run_cons]
      rw [ih _ (fun o ho => hops o (List.mem_cons_of_mem _ ho))]
      cases op with
      | markup s => rfl
      | text s => exact absurd (hops _ (List.mem_cons_self _ _)) (by simp [isMarkupOp])
      | encoded mu t => exact absurd (hops _ (List.mem_cons_self _ _)) (by simp [isMarkupOp])

/-- Witness for C4: two `add_markup` calls emit the empty stream in both
implementations. -/
theorem c4_markup_invisibility_witness :
    (Backends.TextBuilderRemote.new.run
      [Backends.BuildOp.markup "x", Backends.BuildOp.markup "y"]).converted = "" ∧
    (Remote.TextBuilderRemote.new.run
      [Backends.BuildOp.markup "x", Backends.BuildOp.markup "y"]).converted = "" :=
  ⟨c4_markup_invisibility.2.2.1 _ (by decide),
   c4_markup_invisibility.2.2.2 _ (by decide)⟩

end MarkupInvisibility

namespace Convert

/-- The node kinds of `typst_syntax::SyntaxKind` that `State::convert` in
`src/convert.rs` distinguishes; every kind not matched by a specific arm is
collapsed into `other` (plus the kinds `get_function_name` inspects and
`headingMarker`, which all take the fallback arm). -/
inductive SyntaxKind where
  | text
  | equation
  | funcCall
  | contentBlock
  | code
  | moduleImport
  | moduleInclude
  | letBinding
  | showRule
  | setRule
  | heading
  | ref
  | markup
  | shorthand
  | space
  | listItem
  | listMarker
  | parbreak
  | smartQuote
  | named
  | ident
  | fieldAccess
  | headingMarker
  | other
deriving DecidableEq, Repr

/-- A `typst_syntax::SyntaxNode`: kind, leaf text (inner nodes carry `""`),
and children. -/
inductive SyntaxNode where
  | node (kind : SyntaxKind) (text : String) (children : List SyntaxNode)
deriving Repr

def SyntaxNode.kind : SyntaxNode → SyntaxKind
  | .node k _ _ => k

def SyntaxNode.text : SyntaxNode → String
  | .node _ t _ => t

def SyntaxNode.children : SyntaxNode → List SyntaxNode
  | .node _ _ cs => cs

/-- Mirrors `languagetool_rust::check::DataAnnotation` as used by
`src/convert.rs`: `new_text t` sets only `text`, `new_markup m` sets only
`markup`, `new_interpreted_markup m i` sets `markup` and `interpret_as`. -/
structure DataAnnot where
  text : Option String
  markup : Option String
  interpret_as : Option String
deriving DecidableEq, Repr

def DataAnnot.new_text (t : String) : DataAnnot := ⟨some t, none, none⟩

def DataAnnot.new_markup (m : String) : DataAnnot := ⟨none, some m, none⟩

def DataAnnot.new_interpreted_markup (m i : String) : DataAnnot := ⟨none, some m, some i⟩

/-- The character count `Output::add_item` adds for one annotation: characters
of `text` if present plus characters of `markup` if present. -/
def DataAnnot.chunkChars (a : DataAnnot) : Nat :=
  (match a.text with
   | some t => t.length
   | none => 0) +
  (match a.markup with
   | some m => m.length
   | none => 0)

/-- The characters an annotation contributes to the stream the checker sees:
`text` verbatim, `interpret_as` for interpreted markup, nothing for markup. -/
def DataAnnot.stream (a : DataAnnot) : String :=
  (match a.text with
   | some t => t
   | none => "") ++
  (match a.interpret_as with
   | some i => i
   | none => "")

/-- The stream of a whole chunk (annotation list). -/
def annotListStream (items : List DataAnnot) : String :=
  items.foldl (fun acc a => acc ++ a.stream) ""

/-- Mirrors `enum OutputState` of `src/convert.rs`. -/
inductive OutputState where
  | text : String → OutputState
  | markup : String → OutputState
  | encoded : String → String → OutputState
deriving DecidableEq, Repr

/-- Mirrors `struct Output` of `src/convert.rs`.  Rust keeps a non-empty
`items: Vec<(Vec<DataAnnotation>, usize)>` and mutates `items.last_mut()`;
here `done` holds all but the last entry and `current` is the last entry, so
Rust's `items` is `done ++ [current]`. -/
structure Output where
  done : List (List DataAnnot × Nat)
  current : List DataAnnot × Nat
  state : OutputState
deriving DecidableEq, Repr

def Output.new : Output :=
  { done := [], current := ([], 0), state := .text "" }

/-- Rust `Output::add_item`: push onto the last chunk, adding the annotation's
character count to its running total. -/
def Output.add_item (o : Output) (item : DataAnnot) : Output :=
  { o with current := (o.current.1 ++ [item], o.current.2 + item.chunkChars) }

/-- Rust `Output::add_text`. -/
def Output.add_text (o : Output) (text : String) : Output :=
  match o.state with
  | .text t => { o with state := .text (t ++ text) }
  | .markup t =>
    { o.add_item (DataAnnot.new_markup t) with state := .text text }
  | .encoded t a =>
    { o.add_item (DataAnnot.new_interpreted_markup t a) with state := .text text }

/-- Rust `Output::add_markup`. -/
def Output.add_markup (o : Output) (text : String) : Output :=
  match o.state with
  | .text t =>
    { o.add_item (DataAnnot.new_text t) with state := .markup text }
  | .markup t => { o with state := .markup (t ++ text) }
  | .encoded t a =>
    { o.add_item (DataAnnot.new_interpreted_markup t a) with state := .markup text }

/-- Rust `Output::add_encoded`. -/
def Output.add_encoded (o : Output) (text res : String) : Output :=
  match o.state with
  | .text t =>
    { o.add_item (DataAnnot.new_text t) with state := .encoded text res }
  | .markup t =>
    { o.add_item (DataAnnot.new_markup t) with state := .encoded text res }
  | .encoded t a => { o with state := .encoded (t ++ text) (a ++ res) }

/-- Rust `Output::flush`: materialise the pending state as an annotation (the state
itself is left unchanged, exactly as in the Rust code). -/
def Output.flush (o : Output) : Output :=
  match o.state with
  | .text t => o.add_item (DataAnnot.new_text t)
  | .markup t => o.add_item (DataAnnot.new_markup t)
  | .encoded t a => o.add_item (DataAnnot.new_interpreted_markup t a)

/-- Rust `Output::maybe_seperate`: if the last chunk's running character count
exceeds `max`, flush, reset the state and start a fresh chunk. -/
def Output.maybe_seperate (o : Output) (max : Nat) : Output :=
  if max < o.current.2 then
    let o' := o.flush
    { done := o'.done ++ [o'.current], current := ([], 0), state := .text "" }
  else o

/-- Rust `Output::result`: flush and return the accumulated items. -/
def Output.result (o : Output) : List (List DataAnnot × Nat) :=
  (o.flush).done ++ [(o.flush).current]

/-- Mirrors `rules::Function`. -/
structure FunctionRule where
  before : String
  after : String
  after_argument : String
deriving DecidableEq, Repr

/-- Mirrors `rules::Argument`. -/
structure ArgumentRule where
  before : String
  after : String
deriving DecidableEq, Repr

/-- Mirrors `rules::Rules` (`HashMap`s modelled as association lists). -/
structure Rules where
  functions : List (String × FunctionRule)
  arguments : List (String × ArgumentRule)
deriving DecidableEq, Repr

/-- Rust `HashMap::get` on the association-list model. -/
def lookupRule {α : Type} (entries : List (String × α)) (key : String) : Option α :=
  (entries.find? (fun e => e.1 == key)).map (·.2)

/-- The empty rule set. -/
def Rules.empty : Rules := { functions := [], arguments := [] }

/-- Rust `typst_syntax::is_newline`: LF, VT, FF, CR, NEL, LINE SEPARATOR and
PARAGRAPH SEPARATOR. -/
def is_newline (c : Char) : Bool :=
  c = '\n' || c = Char.ofNat 0x0B || c = Char.ofNat 0x0C || c = '\r' ||
  c = Char.ofNat 0x85 || c = Char.ofNat 0x2028 || c = Char.ofNat 0x2029

/-- UTF-8 byte length of a character sequence (Rust `str::len`). -/
def utf8Len : List Char → Nat
  | [] => 0
  | c :: cs => c.utf8Size + utf8Len cs

/-- Rust `str::rfind(is_newline)` over bytes: the byte index of the start of the
last newline character, scanning with a running byte position and keeping the
most recent hit. -/
def rfindNewline : List Char → Nat → Option Nat → Option Nat
  | [], _, acc => acc
  | c :: rest, pos, acc =>
    rfindNewline rest (pos + c.utf8Size) (if is_newline c then some pos else acc)

/-- Rust `&s[0..b]`: the prefix of byte length `b`; `none` models the panic
when `b` is not a character boundary or exceeds the string. -/
def takeBytes : List Char → Nat → Option (List Char)
  | _, 0 => some []
  | [], _ + 1 => none
  | c :: rest, b + 1 =>
    if c.utf8Size ≤ b + 1 then (takeBytes rest (b + 1 - c.utf8Size)).map (c :: ·)
    else none

theorem sizeOf_node (k : SyntaxKind) (t : String) (cs : List SyntaxNode) :
    sizeOf (SyntaxNode.node k t cs) = 1 + sizeOf k + sizeOf t + sizeOf cs := by
  simp

theorem head?_mem {α : Type} {l : List α} {a : α} (h : l.head? = some a) : a ∈ l := by
  cases l with
  | nil => exact Option.noConfusion h
  | cons x xs =>
    simp only [List.head?] at h
    rw [← Option.some_inj.mp h]
    exact List.mem_cons_self _ _

theorem getLast?_mem {α : Type} {l : List α} {a : α} (h : l.getLast? = some a) : a ∈ l := by
  induction l with
  | nil => exact Option.noConfusion h
  | cons x xs ih =>
    cases xs with
    | nil =>
      simp only [List.getLast?_singleton] at h
      rw [← Option.some_inj.mp h]
      exact List.mem_cons_self _ _
    | cons y ys =>
      rw [List.getLast?_cons_cons] at h
      exact List.mem_cons_of_mem _ (ih h)

/-- Mirrors `get_function_name` of `src/convert.rs`. -/
def get_function_name : SyntaxNode → Option String
  | .node .funcCall _ cs =>
    match h : cs.head? with
    | some c => get_function_name c
    | none => none
  | .node .ident t _ => some t
  | .node .fieldAccess _ cs =>
    match h : cs.getLast? with
    | some c => get_function_name c
    | none => none
  | _ => none
termination_by n => sizeOf n
decreasing_by
  · have h1 := List.sizeOf_lt_of_mem (head?_mem h)
    simp
    omega
  · have h1 := List.sizeOf_lt_of_mem (getLast?_mem h)
    simp
    omega

/-- Mirrors the two-valued `Mode`. -/
inductive Mode where
  | text
  | markup
deriving DecidableEq, Repr

/-- Mirrors `struct State` (with the borrowed `after_argument` string). -/
structure State where
  mode : Mode
  after_argument : String
deriving DecidableEq, Repr

mutual

/-- Mirrors `State::skip`: emit the node's text as markup and skip children. -/
def skipNode (node : SyntaxNode) (output : Output) : Output :=
  match node with
  | .node _ t cs => skipChildren cs (output.add_markup t)

def skipChildren (cs : List SyntaxNode) (output : Output) : Output :=
  match cs with
  | [] => output
  | c :: rest => skipChildren rest (skipNode c output)

end

mutual

/-- Mirrors `State::convert` of `src/convert.rs`.  Rust guard clauses
(`SyntaxKind::Text if self.mode == Mode::Text`, …) fall through to the final
`_` arm when the guard fails, so those arms duplicate the fallback.  The
immutable `rule` binding of the `FuncCall` and `Named` arms is matched once
here, its two Rust `if let` uses folded into the branches.  A `none` result
models a panic: the byte slicing of the `Space` arm when the last newline
character of the node text is not one byte wide, and the
`children().next().unwrap()` of the `Named` arm on a childless node. -/
def convertNode (st : State) (n : SyntaxNode) (rules : Rules) (output : Output) :
    Option Output :=
  match n with
  | .node kind text cs =>
    match kind with
    | .text =>
      if st.mode = .text then some (output.add_text text)
      else convertChildren st cs rules (output.add_markup text)
    | .equation => some (skipNode (.node .equation text cs) (output.add_encoded text "0"))
    | .funcCall =>
      match lookupRule rules.functions ((get_function_name (.node .funcCall text cs)).getD "") with
      | some f =>
        match convertChildren { mode := .markup, after_argument := f.after_argument } cs
            rules (output.add_encoded "" f.before) with
        | none => none
        | some output => some (output.add_encoded "" f.after)
      | none =>
        convertChildren { mode := .markup, after_argument := "" } cs rules output
    | .contentBlock =>
      match convertChildren st cs rules output with
      | none => none
      | some output =>
        if st.after_argument.isEmpty then some output
        else some (output.add_encoded "" st.after_argument)
    | .code => convertChildren { st with mode := .markup } cs rules output
    | .moduleImport => convertChildren { st with mode := .markup } cs rules output
    | .moduleInclude => convertChildren { st with mode := .markup } cs rules output
    | .letBinding => convertChildren { st with mode := .markup } cs rules output
    | .showRule => convertChildren { st with mode := .markup } cs rules output
    | .setRule => convertChildren { st with mode := .markup } cs rules output
    | .heading =>
      match convertChildren { st with mode := .markup } cs rules
          (output.add_encoded "" "\n\n") with
      | none => none
      | some output => some (output.add_encoded "" "\n\n")
    | .ref => some (skipNode (.node .ref text cs) (output.add_encoded "" "X"))
    | .markup => convertChildren { st with mode := .text } cs rules output
    | .shorthand =>
      if text = "~" then some (output.add_encoded text " ")
      else convertChildren st cs rules (output.add_markup text)
    | .space =>
      -- `let linebreak = text.rfind(is_newline).map(|x| x + 1)`, with the
      -- `+ 1` inlined at the two uses of `linebreak`
      if st.mode = .text then
        match rfindNewline text.data 0 none with
        | some x =>
          if x + 1 < utf8Len text.data then
            match takeBytes text.data (x + 1) with
            | some sub => some (output.add_encoded text (String.mk sub))
            | none => none
          else some (output.add_text text)
        | none => some (output.add_text text)
      else convertChildren st cs rules (output.add_markup text)
    | .listItem => convertChildren { st with mode := .markup } cs rules output
    | .listMarker => some (output.add_encoded text "- ")
    | .parbreak => some (output.add_encoded text "\n\n")
    | .smartQuote =>
      if st.mode = .text then some (output.add_text text)
      else convertChildren st cs rules (output.add_markup text)
    | .named =>
      match cs with
      | [] => none
      | c0 :: _ =>
        match lookupRule rules.arguments c0.text with
        | some f =>
          match convertChildren st cs rules (output.add_encoded "" f.before) with
          | none => none
          | some output => some (output.add_encoded "" f.after)
        | none => convertChildren st cs rules output
    | .ident => convertChildren st cs rules (output.add_markup text)
    | .fieldAccess => convertChildren st cs rules (output.add_markup text)
    | .headingMarker => convertChildren st cs rules (output.add_markup text)
    | .other => convertChildren st cs rules (output.add_markup text)

def convertChildren (st : State) (cs : List SyntaxNode) (rules : Rules)
    (output : Output) : Option Output :=
  match cs with
  | [] => some output
  | c :: rest =>
    match convertNode st c rules output with
    | none => none
    | some output => convertChildren st rest rules output

end

/-- The loop body of the top-level `convert`: each child is converted and a
paragraph break triggers the chunk-size check. -/
def convertTop (st : State) (rules : Rules) (max_length : Nat) :
    List SyntaxNode → Output → Option Output
  | [], output => some output
  | c :: rest, output =>
    match convertNode st c rules output with
    | none => none
    | some output =>
      let output :=
        if c.kind = .parbreak then output.maybe_seperate max_length else output
      convertTop st rules max_length rest output

/-- Mirrors the top-level `convert` of `src/convert.rs`. -/
def convert (node : SyntaxNode) (rules : Rules) (max_length : Nat) :
    Option (List (List DataAnnot × Nat)) :=
  (convertTop { mode := .text, after_argument := "" } rules max_length
    node.children Output.new).map Output.result

/-- The emitted checker stream of a conversion result: concatenation of each
chunk's stream. -/
def resultStream (r : List (List DataAnnot × Nat)) : String :=
  r.foldl (fun acc chunk => acc ++ annotListStream chunk.1) ""

@[simp] theorem add_item_done (o : Output) (a : DataAnnot) :
    (o.add_item a).done = o.done := rfl

@[simp] theorem add_text_done (o : Output) (t : String) :
    (o.add_text t).done = o.done := by
  cases ho : o.state <;> simp [Output.add_text, ho]

@[simp] theorem add_markup_done (o : Output) (t : String) :
    (o.add_markup t).done = o.done := by
  cases ho : o.state <;> simp [Output.add_markup, ho]

@[simp] theorem add_encoded_done (o : Output) (t r : String) :
    (o.add_encoded t r).done = o.done := by
  cases ho : o.state <;> simp [Output.add_encoded, ho]

@[simp] theorem flush_done (o : Output) : (o.flush).done = o.done := by
  cases ho : o.state <;> simp [Output.flush, ho]

theorem skip_done :
    (∀ (n : SyntaxNode) (output : Output), (skipNode n output).done = output.done) ∧
    (∀ (cs : List SyntaxNode) (output : Output),
      (skipChildren cs output).done = output.done) := by
  refine skipNode.mutual_induct
    (fun n output => (skipNode n output).done = output.done)
    (fun cs output => (skipChildren cs output).done = output.done) ?_ ?_ ?_
  · intro output k t cs ih
    simp only [skipNode]
    rw [ih, add_markup_done]
  · intro output
    simp only [skipChildren]
  · intro output c rest ih1 ih2
    simp only [skipChildren]
    rw [ih2, ih1]

/-- Rust `State::convert` (and the child loop) never push a new chunk: the list of
completed chunks is unchanged by the whole recursive walk, whenever it
succeeds.  Chunks are only ever created by `Output::maybe_seperate`. -/
theorem convert_done :
    (∀ (st : State) (n : SyntaxNode) (rules : Rules) (output : Output) (out' : Output),
      convertNode st n rules output = some out' → out'.done = output.done) ∧
    (∀ (st : State) (cs : List SyntaxNode) (rules : Rules) (output : Output) (out' : Output),
      convertChildren st cs rules output = some out' → out'.done = output.done) := by
  apply convertNode.mutual_induct
    (fun st n rules output => ∀ out',
      convertNode st n rules output = some out' → out'.done = output.done)
    (fun st cs rules output => ∀ out',
      convertChildren st cs rules output = some out' → out'.done = output.done)
  all_goals intros
  all_goals simp_all [convertNode, convertChildren, skip_done.1, skip_done.2]
  all_goals subst_vars
  all_goals try simp_all [skip_done.1, skip_done.2]
  all_goals
    rename_i hle heq
    rw [if_neg (by omega)] at heq
    rw [← Option.some_inj.mp heq]
    simp

theorem convertTop_done_no_parbreak (cs : List SyntaxNode) : ∀ (st : State) (rules : Rules)
    (max : Nat) (output out' : Output),
    (∀ c ∈ cs, c.kind ≠ .parbreak) →
    convertTop st rules max cs output = some out' →
    out'.done = output.done := by
  induction cs with
  | nil =>
    intro st rules max output out' hnp h
    rw [convertTop] at h
    rw [← Option.some_inj.mp h]
  | cons c rest ih =>
    intro st rules max output out' hnp h
    rw [convertTop] at h
    cases hc : convertNode st c rules output with
    | none => rw [hc] at h; exact Option.noConfusion h
    | some o1 =>
      rw [hc] at h
      simp only [] at h
      rw [if_neg (hnp c (List.mem_cons_self _ _))] at h
      rw [ih st rules max o1 out' (fun x hx => hnp x (List.mem_cons_of_mem _ hx)) h]
      exact convert_done.1 st c rules output o1 hc

/-- C3 (confirmed): chunks are separated only by `Output::maybe_seperate`,
which the top-level `convert` invokes exactly after each `Parbreak` child and
which starts a new chunk exactly when the current chunk's running character
count exceeds `max`.  Conjuncts: (1) the recursive node walker never pushes a
chunk; (2) `maybe_seperate` pushes the flushed current chunk iff the count
exceeds `max`; (3) hence a document without top-level paragraph breaks yields
a single chunk for every `max_length`. -/
theorem c3_chunk_boundaries :
    (∀ (st : State) (n : SyntaxNode) (rules : Rules) (output out' : Output),
      convertNode st n rules output = some out' → out'.done = output.done) ∧
    (∀ (o : Output) (max : Nat),
      (o.maybe_seperate max).done =
        if max < o.current.2 then o.done ++ [(o.flush).current] else o.done) ∧
    (∀ (node : SyntaxNode) (rules : Rules) (max : Nat) (r : List (List DataAnnot × Nat)),
      (∀ c ∈ node.children, c.kind ≠ .parbreak) →
      convert node rules max = some r → r.length = 1) := by
  refine ⟨convert_done.1, ?_, ?_⟩
  · intro o max
    rw [Output.maybe_seperate]
    split_ifs with h <;> simp
  · intro node rules max r hnp h
    rw [convert] at h
    cases ht : convertTop { mode := Mode.text, after_argument := "" } rules max
        node.children Output.new with
    | none => rw [ht] at h; exact Option.noConfusion h
    | some out' =>
      rw [ht] at h
      simp only [Option.map_some'] at h
      have hdone := convertTop_done_no_parbreak node.children _ rules max _ out' hnp ht
      rw [← Option.some_inj.mp h, Output.result]
      rw [flush_done, hdone]
      rfl

/-- Witness for C3: a one-paragraph document gives one chunk, and a concrete
`convertNode` call leaves the completed-chunk list unchanged. -/
theorem c3_chunk_boundaries_witness :
    ([([DataAnnot.new_text "hi"], 2)] : List (List DataAnnot × Nat)).length = 1 ∧
    (Output.new.add_text "hi").done = Output.new.done :=
  ⟨c3_chunk_boundaries.2.2 (.node .markup "" [.node .text "hi" []]) Rules.empty 1000
      [([DataAnnot.new_text "hi"], 2)] (by decide) (by decide),
   c3_chunk_boundaries.1 { mode := Mode.text, after_argument := "" }
      (.node .text "hi" []) Rules.empty Output.new (Output.new.add_text "hi") (by decide)⟩

/-- The syntax tree `typst_syntax::parse` produces for the source
`"Hello   \n\tworld."`: the `Space` node holds the whitespace run
`"   \n\t"` (three spaces, newline, tab). -/
def spaceScenarioTree : SyntaxNode :=
  .node .markup ""
    [.node .text "Hello" [], .node .space "   \n\t" [], .node .text "world." []]

/-- Counterexample for C2: converting `"Hello   \n\tworld."` yields the
stream `"Hello   \nworld."` — the three spaces before the newline are kept in
the `Encoded` substitute — and not the claimed `"Hello\nworld."`. -/
theorem c2_space_scenario_counterexample :
    (convert spaceScenarioTree Rules.empty 1000).map resultStream =
      some "Hello   \nworld." ∧
    (convert spaceScenarioTree Rules.empty 1000).map resultStream ≠
      some "Hello\nworld." := by
  constructor
  · decide
  · decide

theorem utf8Len_append (xs ys : List Char) :
    utf8Len (xs ++ ys) = utf8Len xs + utf8Len ys := by
  induction xs with
  | nil => simp [utf8Len]
  | cons c rest ih => simp [utf8Len, ih]; omega

theorem utf8Len_pos {cs : List Char} (h : cs ≠ []) : 0 < utf8Len cs := by
  cases cs with
  | nil => exact absurd rfl h
  | cons c rest =>
    have := Char.utf8Size_pos c
    simp [utf8Len]
    omega

theorem rfindNewline_no_newline (cs : List Char) (pos : Nat) (acc : Option Nat)
    (h : ∀ c ∈ cs, is_newline c = false) : rfindNewline cs pos acc = acc := by
  induction cs generalizing pos acc with
  | nil => rfl
  | cons c rest ih =>
    rw [rfindNewline, h c (List.mem_cons_self _ _)]
    exact ih _ _ (fun x hx => h x (List.mem_cons_of_mem _ hx))

theorem rfindNewline_last (pre suf : List Char) (nl : Char) (pos : Nat) (acc : Option Nat)
    (hnl : is_newline nl = true) (hsuf : ∀ c ∈ suf, is_newline c = false) :
    rfindNewline (pre ++ nl :: suf) pos acc = some (pos + utf8Len pre) := by
  induction pre generalizing pos acc with
  | nil =>
    rw [List.nil_append, rfindNewline, hnl]
    rw [rfindNewline_no_newline suf _ _ hsuf]
    simp [utf8Len]
  | cons c rest ih =>
    rw [List.cons_append, rfindNewline, ih]
    simp [utf8Len]
    omega

theorem takeBytes_exact (xs rest : List Char) :
    takeBytes (xs ++ rest) (utf8Len xs) = some xs := by
  induction xs with
  | nil =>
    show takeBytes rest 0 = some []
    cases rest <;> rfl
  | cons c tail ih =>
    have hpos := Char.utf8Size_pos c
    obtain ⟨b, hb⟩ : ∃ b, c.utf8Size + utf8Len tail = b + 1 :=
      ⟨c.utf8Size + utf8Len tail - 1, by omega⟩
    rw [List.cons_append]
    show takeBytes (c :: (tail ++ rest)) (utf8Len (c :: tail)) = some (c :: tail)
    have hlen : utf8Len (c :: tail) = b + 1 := by
      simp [utf8Len, hb]
    rw [hlen, takeBytes]
    rw [if_pos (by omega)]
    have hsub : b + 1 - c.utf8Size = utf8Len tail := by omega
    rw [hsub, ih]
    rfl

theorem takeBytes_inside_multibyte (pre suf : List Char) (nl : Char)
    (h2 : 2 ≤ nl.utf8Size) :
    takeBytes (pre ++ nl :: suf) (utf8Len pre + 1) = none := by
  induction pre with
  | nil =>
    show takeBytes (nl :: suf) (0 + 1) = none
    rw [takeBytes]
    rw [if_neg (by omega)]
  | cons c tail ih =>
    have hpos := Char.utf8Size_pos c
    rw [List.cons_append]
    show takeBytes (c :: (tail ++ nl :: suf)) (utf8Len (c :: tail) + 1) = none
    have hlen : utf8Len (c :: tail) + 1 = (c.utf8Size + utf8Len tail) + 1 := by
      simp [utf8Len]
    rw [hlen, takeBytes]
    rw [if_pos (by omega)]
    have hsub : c.utf8Size + utf8Len tail + 1 - c.utf8Size = utf8Len tail + 1 := by omega
    rw [hsub, ih]
    rfl

/-- C2 (amended and proved): for every `Space` node processed in `Text` mode
whose text is a run `pre ++ nl ++ suf` with `nl` the last line break and
`suf` nonempty (further whitespace after the line break), the behaviour
splits on the byte width of the line break.  When `nl` is one byte wide (all
ASCII line breaks), the walker emits an `Encoded` segment whose substitute is
the node text up to and including that line break and nothing after it —
whitespace before the line break is kept.  When `nl` is multi-byte (U+0085,
U+2028, U+2029), no `Encoded` segment is emitted at all: the byte slice
`&text[0..linebreak]` falls inside the line-break character and the walker
panics (`none`; here even an empty `suf` triggers it).  Concretely,
`"Hello   \n\tworld."` converts with substitute `"   \n"`, giving the stream
`"Hello   \nworld."`. -/
theorem c2_space_rule_amended :
    (∀ (st : State) (t : String) (pre suf : List Char) (nl : Char)
       (cs : List SyntaxNode) (rules : Rules) (output : Output),
      st.mode = .text →
      t.data = pre ++ nl :: suf →
      is_newline nl = true →
      nl.utf8Size = 1 →
      suf ≠ [] →
      (∀ c ∈ suf, is_newline c = false) →
      convertNode st (.node .space t cs) rules output =
        some (output.add_encoded t (String.mk (pre ++ [nl])))) ∧
    (∀ (st : State) (t : String) (pre suf : List Char) (nl : Char)
       (cs : List SyntaxNode) (rules : Rules) (output : Output),
      st.mode = .text →
      t.data = pre ++ nl :: suf →
      is_newline nl = true →
      2 ≤ nl.utf8Size →
      (∀ c ∈ suf, is_newline c = false) →
      convertNode st (.node .space t cs) rules output = none) ∧
    convert spaceScenarioTree Rules.empty 1000 =
      some [([DataAnnot.new_text "Hello",
              DataAnnot.new_interpreted_markup "   \n\t" "   \n",
              DataAnnot.new_text "world."], 16)] := by
  refine ⟨?_, ?_, ?_⟩
  · intro st t pre suf nl cs rules output hmode hdata hnl hsize hsuf hnonl
    have hrfind : rfindNewline t.data 0 none = some (utf8Len pre) := by
      rw [hdata, rfindNewline_last pre suf nl 0 none hnl hnonl]
      simp
    have hlen : utf8Len t.data = utf8Len pre + 1 + utf8Len suf := by
      rw [hdata, show pre ++ nl :: suf = (pre ++ [nl]) ++ suf by simp,
        utf8Len_append, utf8Len_append]
      simp [utf8Len, hsize]
    have hguard : utf8Len pre + 1 < utf8Len t.data := by
      have := utf8Len_pos hsuf
      omega
    have htake : takeBytes t.data (utf8Len pre + 1) = some (pre ++ [nl]) := by
      have hsplit : t.data = (pre ++ [nl]) ++ suf := by
        rw [hdata]; simp
      have hpn : utf8Len (pre ++ [nl]) = utf8Len pre + 1 := by
        rw [utf8Len_append]
        simp [utf8Len, hsize]
      rw [hsplit, ← hpn, takeBytes_exact]
    rw [convertNode]
    simp only [hmode, if_true, hrfind, hguard, if_pos, htake]
  · intro st t pre suf nl cs rules output hmode hdata hnl hsize hnonl
    have hrfind : rfindNewline t.data 0 none = some (utf8Len pre) := by
      rw [hdata, rfindNewline_last pre suf nl 0 none hnl hnonl]
      simp
    have hlen : utf8Len t.data = utf8Len pre + nl.utf8Size + utf8Len suf := by
      rw [hdata, utf8Len_append]
      simp [utf8Len]
      omega
    have hguard : utf8Len pre + 1 < utf8Len t.data := by omega
    have htake : takeBytes t.data (utf8Len pre + 1) = none := by
      rw [hdata, takeBytes_inside_multibyte pre suf nl hsize]
    rw [convertNode]
    simp only [hmode, if_true, hrfind, hguard, if_pos, htake]
  · decide

/-- Witness for C2's amended rule, at the scenario's own `Space` node
`"   \n\t"` — the emitted segment is `Encoded("   \n\t", "   \n")` — and, for
the multi-byte regime, at the `Space` node `"\u{2028}\t"` (LINE SEPARATOR
then tab), where conversion fails. -/
theorem c2_space_rule_amended_witness :
    (convertNode { mode := Mode.text, after_argument := "" }
        (.node .space "   \n\t" []) Rules.empty Output.new =
      some (Output.new.add_encoded "   \n\t"
        (String.mk ([' ', ' ', ' '] ++ ['\n'])))) ∧
    convertNode { mode := Mode.text, after_argument := "" }
        (.node .space "\u2028\t" []) Rules.empty Output.new = none :=
  ⟨c2_space_rule_amended.1 { mode := Mode.text, after_argument := "" }
    "   \n\t" [' ', ' ', ' '] ['\t'] '\n' [] Rules.empty Output.new
    rfl (by decide) (by decide) (by decide) (by decide) (by decide),
   c2_space_rule_amended.2.1 { mode := Mode.text, after_argument := "" }
    "\u2028\t" [] ['\t'] '\u2028' [] Rules.empty Output.new
    rfl (by decide) (by decide) (by decide) (by decide)⟩

/-- The syntax tree `typst_syntax::parse` produces for the source
`"= Intro"`. -/
def headingIntroTree : SyntaxNode :=
  .node .markup ""
    [.node .heading ""
      [.node .headingMarker "=" [], .node .space " " [],
       .node .markup "" [.node .text "Intro" []]]]

/-- C5 (confirmed): converting a document consisting of a heading with content
text `"Intro"` produces exactly the stream `"\n\nIntro\n\n"`; the two `"\n\n"`
runs are synthetic `Encoded` (interpreted markup) segments with empty original
text, and `"Intro"` is a verbatim `Text` segment. -/
theorem c5_heading_intro :
    convert headingIntroTree Rules.empty 1000 =
      some [([DataAnnot.new_text "",
              DataAnnot.new_interpreted_markup "" "\n\n",
              DataAnnot.new_markup "= ",
              DataAnnot.new_text "Intro",
              DataAnnot.new_interpreted_markup "" "\n\n"], 7)] ∧
    (convert headingIntroTree Rules.empty 1000).map resultStream =
      some "\n\nIntro\n\n" := by
  constructor
  · decide
  · decide

/-- The syntax tree `typst_syntax::parse` produces for the source
`"a\u{2028}b"`: U+2028 LINE SEPARATOR is whitespace counted as one newline by
`typst_syntax`, so it becomes a `Space` node of its own. -/
def lineSeparatorTree : SyntaxNode :=
  .node .markup ""
    [.node .text "a" [], .node .space "\u2028" [], .node .text "b" []]

/-- C7 evaluated at the failing input: the `Space` arm computes
`rfind(is_newline) = Some(0)` and slices `&text[0..1]`, but U+2028 occupies
bytes 0..3, so the slice is not on a character boundary and the Rust code
panics — the conversion fails (`none`) instead of always succeeding. -/
theorem c7_walker_panics_on_line_separator :
    convert lineSeparatorTree Rules.empty 1000 = none := by decide

end Convert

namespace CacheModel

/-- The `Suggestion` struct shared by the CLI and LSP crates. -/
structure Suggestion where
  start : Nat
  stop : Nat
  message : String
  replacements : List String
  rule_description : String
  rule_id : String
deriving DecidableEq, Repr

/-- Mirrors the `Cache` struct of `cli/src/main.rs` and `lsp/src/main.rs`
(identical in both): a `HashMap<String, (String, Vec<Suggestion>)>` keyed by
chunk text, modelled as a function map. -/
structure Cache where
  cache : String → Option (String × List Suggestion)

/-- Rust `Cache::new`. -/
def Cache.new : Cache := ⟨fun _ => none⟩

/-- Rust `Cache::get`: `self.cache.remove(text)?` — the entry is removed whenever
the text key is present — then the suggestions are returned only if the stored
language equals `lang`. -/
def Cache.get (c : Cache) (text lang : String) : Option (List Suggestion) × Cache :=
  match c.cache text with
  | none => (none, c)
  | some entry =>
    (if lang = entry.1 then some entry.2 else none,
     ⟨fun k => if k = text then none else c.cache k⟩)

/-- Rust `Cache::insert`. -/
def Cache.insert (c : Cache) (text lang : String) (s : List Suggestion) : Cache :=
  ⟨fun k => if k = text then some (lang, s) else c.cache k⟩

/-- C6 (confirmed): after `insert(text, lang, s)`, `get(text, lang)` returns
`some s` and consumes the entry, so an immediately repeated `get(text, lang)`
returns `none`; and `get` returns `some` only when the stored entry matches
both the text key and the language exactly. -/
theorem c6_cache_get_insert :
    (∀ (c : Cache) (text lang : String) (s : List Suggestion),
      ((c.insert text lang s).get text lang).1 = some s) ∧
    (∀ (c : Cache) (text lang : String) (s : List Suggestion),
      ((((c.insert text lang s).get text lang).2).get text lang).1 = none) ∧
    (∀ (c : Cache) (text lang : String) (r : List Suggestion),
      (c.get text lang).1 = some r → c.cache text = some (lang, r)) := by
  refine ⟨?_, ?_, ?_⟩
  · intro c text lang s
    simp [Cache.get, Cache.insert]
  · intro c text lang s
    simp [Cache.get, Cache.insert]
  · intro c text lang r h
    rw [Cache.get] at h
    cases hc : c.cache text with
    | none => rw [hc] at h; exact Option.noConfusion h
    | some entry =>
      rw [hc] at h
      simp only [] at h
      split_ifs at h with hl
      rw [hl, ← Option.some_inj.mp h]


/-- Witness for C6 at a concrete cache state. -/
theorem c6_cache_get_insert_witness :
    ((Cache.new.insert "par" "en-US" []).get "par" "en-US").1 = some [] ∧
    ((((Cache.new.insert "par" "en-US" []).get "par" "en-US").2).get "par" "en-US").1
      = none ∧
    (Cache.new.insert "par" "en-US" []).cache "par" = some ("en-US", []) :=
  ⟨c6_cache_get_insert.1 Cache.new "par" "en-US" [],
   c6_cache_get_insert.2.1 Cache.new "par" "en-US" [],
   c6_cache_get_insert.2.2 (Cache.new.insert "par" "en-US" []) "par" "en-US" []
     (by simp [Cache.new, Cache.get, Cache.insert])⟩

end CacheModel

namespace CliOutput

/-- Rust `char::is_whitespace`: the Unicode `White_Space` property. -/
def rustIsWhitespace (c : Char) : Bool :=
  c.toNat = 0x09 || c.toNat = 0x0A || c.toNat = 0x0B || c.toNat = 0x0C ||
  c.toNat = 0x0D || c.toNat = 0x20 || c.toNat = 0x85 || c.toNat = 0xA0 ||
  c.toNat = 0x1680 || (0x2000 ≤ c.toNat && c.toNat ≤ 0x200A) ||
  c.toNat = 0x2028 || c.toNat = 0x2029 || c.toNat = 0x202F ||
  c.toNat = 0x205F || c.toNat = 0x3000

/-- Rust `str::trim`: drop `White_Space` characters from both ends. -/
def rustTrim (cs : List Char) : List Char :=
  ((cs.dropWhile rustIsWhitespace).reverse.dropWhile rustIsWhitespace).reverse

def MAX_SUGGESTIONS : Nat := 20

/-- The replacement values presented to the user, as iterated by both
`output_plain` and `print_pretty` in `cli/src/output.rs`:
`replacements.filter(|s| s.value.trim().is_empty().not()).take(MAX_SUGGESTIONS)`. -/
def presentedReplacements (replacements : List String) : List String :=
  (replacements.filter (fun v => (rustTrim v.data).isEmpty = false)).take MAX_SUGGESTIONS

/-- C8 (confirmed): the presented replacement strings are exactly the input
replacements minus those that are empty after trimming whitespace, capped at
20, each presented unchanged: every presented value occurs among the inputs
and is not whitespace-only; the presented list is a sublist (order and values
preserved); when at most 20 replacements survive the filter, nothing else is
dropped; and at most 20 are shown. -/
theorem c8_replacement_filter :
    (∀ (rs : List String) (v : String), v ∈ presentedReplacements rs →
      v ∈ rs ∧ (rustTrim v.data).isEmpty = false) ∧
    (∀ rs : List String, (presentedReplacements rs).Sublist rs) ∧
    (∀ rs : List String,
      (rs.filter (fun v => (rustTrim v.data).isEmpty = false)).length ≤ MAX_SUGGESTIONS →
      presentedReplacements rs = rs.filter (fun v => (rustTrim v.data).isEmpty = false)) ∧
    (∀ rs : List String, (presentedReplacements rs).length ≤ MAX_SUGGESTIONS) := by
  refine ⟨?_, ?_, ?_, ?_⟩
  · intro rs v hv
    have hmem := List.mem_filter.mp (List.mem_of_mem_take hv)
    constructor
    · exact hmem.1
    · simpa using hmem.2
  · intro rs
    exact (List.take_sublist _ _).trans (List.filter_sublist _)
  · intro rs h
    exact List.take_of_length_le h
  · intro rs
    rw [presentedReplacements, List.length_take]
    exact Nat.min_le_left _ _

/-- Witness for C8: a whitespace-only replacement is dropped, the others are
kept in order. -/
theorem c8_replacement_filter_witness :
    presentedReplacements ["grate", " \t ", "great"] = ["grate", "great"] ∧
    ("grate" ∈ ["grate", " \t ", "great"] ∧
      (rustTrim "grate".data).isEmpty = false) :=
  ⟨by decide,
   c8_replacement_filter.1 ["grate", " \t ", "great"] "grate" (by decide)⟩

end CliOutput

namespace PositionTracking

/-- Rust `&text[b..]` as characters (byte-indexed slicing; all reachable
states slice at character boundaries). -/
def byteDrop : List Char → Nat → List Char
  | cs, 0 => cs
  | [], _ + 1 => []
  | c :: rest, b + 1 => byteDrop rest (b + 1 - c.utf8Size)

/-- Rust `&text[..b]` as characters. -/
def byteTake : List Char → Nat → List Char
  | _, 0 => []
  | [], _ + 1 => []
  | c :: rest, b + 1 => c :: byteTake rest (b + 1 - c.utf8Size)

def utf8Len (cs : List Char) : Nat := (cs.map Char.utf8Size).sum

/-- Mirrors `struct StringCursor` (identical in `src/lib.rs`,
`src/languagetool.rs` and `cli/src/output.rs`). -/
structure StringCursor where
  text : List Char
  utf_8_index : Nat
  char_index : Nat
deriving DecidableEq, Repr

/-- The forward loop of `StringCursor::utf_8_offset`:
`for c in text[utf_8_index..].chars().take(target - char_index)`, with the
final `(char_index == target).then_some(utf_8_index)` check inlined at both
loop exits. -/
def cursorFwd (stop_at_newline : Bool) (target : Nat) :
    StringCursor → Nat → List Char → Option Nat × StringCursor
  | sc, 0, _ =>
    ((if sc.char_index = target then some sc.utf_8_index else none), sc)
  | sc, _ + 1, [] =>
    ((if sc.char_index = target then some sc.utf_8_index else none), sc)
  | sc, n + 1, c :: rest =>
    if stop_at_newline && (c = '\n' || c = '\r') then (some sc.utf_8_index, sc)
    else
      cursorFwd stop_at_newline target
        { sc with utf_8_index := sc.utf_8_index + c.utf8Size,
                  char_index := sc.char_index + 1 } n rest

/-- The backward loop of `StringCursor::utf_8_offset`:
`for c in text[..utf_8_index].chars().rev().take(char_index - target)`. -/
def cursorBwd (stop_at_newline : Bool) (target : Nat) :
    StringCursor → Nat → List Char → Option Nat × StringCursor
  | sc, 0, _ =>
    ((if sc.char_index = target then some sc.utf_8_index else none), sc)
  | sc, _ + 1, [] =>
    ((if sc.char_index = target then some sc.utf_8_index else none), sc)
  | sc, n + 1, c :: rest =>
    if stop_at_newline && (c = '\n' || c = '\r') then (some sc.utf_8_index, sc)
    else
      cursorBwd stop_at_newline target
        { sc with utf_8_index := sc.utf_8_index - c.utf8Size,
                  char_index := sc.char_index - 1 } n rest

/-- Mirrors `StringCursor::utf_8_offset`, returning the `Option<usize>` result
and the mutated cursor. -/
def StringCursor.utf_8_offset (sc : StringCursor) (char_index : Nat)
    (stop_at_newline : Bool) : Option Nat × StringCursor :=
  if sc.char_index < char_index then
    cursorFwd stop_at_newline char_index sc (char_index - sc.char_index)
      (byteDrop sc.text sc.utf_8_index)
  else if sc.char_index > char_index then
    cursorBwd stop_at_newline char_index sc (sc.char_index - char_index)
      (byteTake sc.text sc.utf_8_index).reverse
  else
    ((if sc.char_index = char_index then some sc.utf_8_index else none), sc)

end PositionTracking

namespace Lib

open PositionTracking

/-- Mirrors `struct Position` of `src/lib.rs` (`TextPosition` in
`src/languagetool.rs`). -/
structure Position where
  utf_8 : Nat
  line : Nat
  column : Nat
deriving DecidableEq, Repr

/-- Mirrors `struct TextWithPosition` of `src/lib.rs` (identical to
`struct Position` of `src/languagetool.rs`, whose `seek` is the same function
as `get_position`). -/
structure TextWithPosition where
  line : Nat
  column : Nat
  content : StringCursor
deriving DecidableEq, Repr

def TextWithPosition.new (content : List Char) : TextWithPosition :=
  { line := 0, column := 0, content := { text := content, utf_8_index := 0, char_index := 0 } }

/-- The forward fold of `get_position`: `'\n'` advances the line and resets
the column to `0`, anything else advances the column. -/
def lcFwd : Nat → Nat → List Char → Nat × Nat
  | line, column, [] => (line, column)
  | line, column, c :: rest =>
    if c = '\n' then lcFwd (line + 1) 0 rest else lcFwd line (column + 1) rest

/-- The backward fold of `get_position` (the `end > start` branch): `'\n'`
decrements the line and sets the column to `1`, anything else decrements the
column. -/
def lcBwd : Nat → Nat → List Char → Nat × Nat
  | line, column, [] => (line, column)
  | line, column, c :: rest =>
    if c = '\n' then lcBwd (line - 1) 1 rest else lcBwd line (column - 1) rest

/-- Mirrors `TextWithPosition::get_position` of `src/lib.rs` and
`Position::seek` of `src/languagetool.rs`.  Note the second branch guards on
`end > start` inside the `else` of `start < end`; its Rust body would slice
`text[end..start]`. -/
def TextWithPosition.get_position (tw : TextWithPosition) (char_index : Nat)
    (stop_at_newline : Bool) : Position × TextWithPosition :=
  let start := tw.content.utf_8_index
  let r := tw.content.utf_8_offset char_index stop_at_newline
  let endPos := r.1.getD (utf8Len r.2.text)
  if start < endPos then
    let lc := lcFwd tw.line tw.column (byteTake (byteDrop r.2.text start) (endPos - start))
    (⟨endPos, lc.1, lc.2⟩, ⟨lc.1, lc.2, r.2⟩)
  else if endPos > start then
    let lc := lcBwd tw.line tw.column (byteTake (byteDrop r.2.text endPos) (start - endPos))
    (⟨endPos, lc.1, lc.2⟩, ⟨lc.1, lc.2, r.2⟩)
  else
    (⟨endPos, tw.line, tw.column⟩, ⟨tw.line, tw.column, r.2⟩)

/-- Rust `get_position` with the backward-walking branch removed. -/
def TextWithPosition.get_position_forward_only (tw : TextWithPosition) (char_index : Nat)
    (stop_at_newline : Bool) : Position × TextWithPosition :=
  let start := tw.content.utf_8_index
  let r := tw.content.utf_8_offset char_index stop_at_newline
  let endPos := r.1.getD (utf8Len r.2.text)
  if start < endPos then
    let lc := lcFwd tw.line tw.column (byteTake (byteDrop r.2.text start) (endPos - start))
    (⟨endPos, lc.1, lc.2⟩, ⟨lc.1, lc.2, r.2⟩)
  else
    (⟨endPos, tw.line, tw.column⟩, ⟨tw.line, tw.column, r.2⟩)

theorem lcFwd_line_mono (cs : List Char) (line column : Nat) :
    line ≤ (lcFwd line column cs).1 := by
  induction cs generalizing line column with
  | nil => exact Nat.le_refl _
  | cons c rest ih =>
    rw [lcFwd]
    split_ifs
    · exact Nat.le_trans (Nat.le_succ _) (ih _ _)
    · exact ih _ _

end Lib

namespace Cli

open PositionTracking

/-- Mirrors `struct Position` of `cli/src/output.rs` (the tracker; its `seek`
returns a `(utf_8, line, column)` tuple). -/
structure Position where
  line : Nat
  column : Nat
  content : StringCursor
deriving DecidableEq, Repr

def Position.new (content : List Char) : Position :=
  { line := 1, column := 1, content := { text := content, utf_8_index := 0, char_index := 0 } }

/-- The forward fold of the CLI `seek`: `'\n'` advances the line and resets
the column to `1`. -/
def lcFwd : Nat → Nat → List Char → Nat × Nat
  | line, column, [] => (line, column)
  | line, column, c :: rest =>
    if c = '\n' then lcFwd (line + 1) 1 rest else lcFwd line (column + 1) rest

/-- The backward fold of the CLI `seek` (the `end > start` branch). -/
def lcBwd : Nat → Nat → List Char → Nat × Nat
  | line, column, [] => (line, column)
  | line, column, c :: rest =>
    if c = '\n' then lcBwd (line - 1) 1 rest else lcBwd line (column - 1) rest

/-- Mirrors `Position::seek` of `cli/src/output.rs`. -/
def Position.seek (p : Position) (char_index : Nat) (stop_at_newline : Bool) :
    (Nat × Nat × Nat) × Position :=
  let start := p.content.utf_8_index
  let r := p.content.utf_8_offset char_index stop_at_newline
  let endPos := r.1.getD (utf8Len r.2.text)
  if start < endPos then
    let lc := lcFwd p.line p.column (byteTake (byteDrop r.2.text start) (endPos - start))
    ((endPos, lc.1, lc.2), ⟨lc.1, lc.2, r.2⟩)
  else if endPos > start then
    let lc := lcBwd p.line p.column (byteTake (byteDrop r.2.text endPos) (start - endPos))
    ((endPos, lc.1, lc.2), ⟨lc.1, lc.2, r.2⟩)
  else
    ((endPos, p.line, p.column), ⟨p.line, p.column, r.2⟩)

/-- Rust `seek` with the backward-walking branch removed. -/
def Position.seek_forward_only (p : Position) (char_index : Nat) (stop_at_newline : Bool) :
    (Nat × Nat × Nat) × Position :=
  let start := p.content.utf_8_index
  let r := p.content.utf_8_offset char_index stop_at_newline
  let endPos := r.1.getD (utf8Len r.2.text)
  if start < endPos then
    let lc := lcFwd p.line p.column (byteTake (byteDrop r.2.text start) (endPos - start))
    ((endPos, lc.1, lc.2), ⟨lc.1, lc.2, r.2⟩)
  else
    ((endPos, p.line, p.column), ⟨p.line, p.column, r.2⟩)

theorem lcFwd_line_mono_cli (cs : List Char) (line column : Nat) :
    line ≤ (lcFwd line column cs).1 := by
  induction cs generalizing line column with
  | nil => exact Nat.le_refl _
  | cons c rest ih =>
    rw [lcFwd]
    split_ifs
    · exact Nat.le_trans (Nat.le_succ _) (ih _ _)
    · exact ih _ _

end Cli

namespace ClaimTen

open PositionTracking Lib Cli

/-- Counterexample for C10: on the text `"abc\nx"`, seeking to character 3
reports column 3, and a subsequent forward seek to character 5 crosses the
newline and reports column 1 — the reported column decreased across the two
calls, refuting "the reported line/column never decrease". -/
theorem c10_column_decreases_counterexample :
    ((((TextWithPosition.new "abc\nx".data).get_position 3 false).2).get_position 5
        false).1.column <
      ((TextWithPosition.new "abc\nx".data).get_position 3 false).1.column := by
  decide

/-- C10 (amended and proved): the backward-walking branch of the line/column
trackers is unreachable — its guard `end > start` sits in the `else` of
`start < end` and can never hold — so `get_position` (`src/lib.rs`, and
`Position::seek` of `src/languagetool.rs`, which is the same code) and the CLI
`Position::seek` equal their forward-only variants, and the reported line
never decreases; the reported column, however, can decrease across calls when
a forward seek crosses a newline (see the counterexample), because the column
is reset there. -/
theorem c10_no_backward_walk :
    (∀ (tw : TextWithPosition) (i : Nat) (s : Bool),
      tw.get_position i s = tw.get_position_forward_only i s) ∧
    (∀ (tw : TextWithPosition) (i : Nat) (s : Bool),
      tw.line ≤ ((tw.get_position i s).2).line) ∧
    (∀ (p : Cli.Position) (i : Nat) (s : Bool),
      p.seek i s = p.seek_forward_only i s) ∧
    (∀ (p : Cli.Position) (i : Nat) (s : Bool),
      p.line ≤ ((p.seek i s).2).line) := by
  have hlib : ∀ (tw : TextWithPosition) (i : Nat) (s : Bool),
      tw.get_position i s = tw.get_position_forward_only i s := by
    intro tw i s
    rw [TextWithPosition.get_position, TextWithPosition.get_position_forward_only]
    split_ifs with h1
    · rfl
    · rfl
  have hcli : ∀ (p : Cli.Position) (i : Nat) (s : Bool),
      p.seek i s = p.seek_forward_only i s := by
    intro p i s
    rw [Position.seek, Position.seek_forward_only]
    split_ifs with h1
    · rfl
    · rfl
  refine ⟨hlib, ?_, hcli, ?_⟩
  · intro tw i s
    rw [hlib tw i s, TextWithPosition.get_position_forward_only]
    split_ifs with h1
    · exact Lib.lcFwd_line_mono _ _ _
    · exact Nat.le_refl _
  · intro p i s
    rw [hcli p i s, Position.seek_forward_only]
    split_ifs with h1
    · exact Cli.lcFwd_line_mono_cli _ _ _
    · exact Nat.le_refl _

end ClaimTen
